import Mathlib

/-!
Verification of the image-deduplication scripts (dedup_phash.py,
dedup_phash_v2.py, dedup_fastdup.py).

The development shallow-embeds the pure core of the scripts:

* `hamming` — the distance between two perceptual hashes, as computed by
  `h1 - h2` on imagehash values (count of differing bits of the two
  bit sequences).
* `hashRecords` — the fingerprint loop of `deduplicate_images`
  (dedup_phash_v2.py lines 143-151): images whose hash computation fails
  are skipped (printed and dropped), the others become records.
* `growGroup` / `clusterLoop` — the grouping loop of `deduplicate_images`
  (dedup_phash_v2.py lines 153-180; identical logic in dedup_phash.py
  lines 67-94).
* `mkReport` — the report assembled at lines 183-190.
* a filesystem model (`osWrite`, `osUnlink`, `deleteLoopV2`,
  `deleteLoopV1`, `deduplicateImagesFS`) for the logging, preview and
  deletion phases; the filesystem is a list of existing paths plus a list
  of paths whose deletion fails with a permission error.
* `fastdupMain` — exit-status behaviour of dedup_fastdup.py
  (`__main__` lines 288-299 and `deduplicate_with_fastdup` lines 103-108).
-/

/-- A filesystem path as a sequence of components (pathlib.Path model). -/
structure FsPath where
  parts : List String
deriving DecidableEq

/-- A perceptual hash: the flattened bit array of an imagehash value. -/
abbrev PHash := List Bool

/-- Distance of two perceptual hashes: `h1 - h2` in imagehash counts the
positions where the flattened bit arrays differ (hashes of a given run all
have the same fixed size; on mismatched sizes imagehash raises, which the
scripts never trigger). -/
def hamming (h1 h2 : PHash) : Nat :=
  (List.zip h1 h2).countP (fun p => p.1 != p.2)

/-- The `{"path": img, "hash": compute_phash(img)}` record of the scripts. -/
structure ImageRecord where
  path : FsPath
  hash : PHash
deriving DecidableEq

/-- Fingerprint loop, dedup_phash_v2.py lines 143-151: each image is paired
with the result of `compute_phash` (`none` models the exception case); a
failing image is only printed and skipped, a succeeding one is appended. -/
def hashRecords : List (FsPath × Option PHash) → List ImageRecord
  | [] => []
  | (p, some h) :: rest => ⟨p, h⟩ :: hashRecords rest
  | (_, none) :: rest => hashRecords rest

/-- Inner loop of the grouping pass, dedup_phash_v2.py lines 166-171: scan
the records after the seed `r1`; an unvisited record within the threshold
of the seed joins the group and is marked visited. Returns the records
added to the group (in scan order) and the updated visited set. -/
def growGroup (r1 : ImageRecord) (T : Nat) :
    List ImageRecord → List FsPath → List ImageRecord × List FsPath
  | [], visited => ([], visited)
  | r2 :: rest, visited =>
    if r2.path ∈ visited then growGroup r1 T rest visited
    else if hamming r1.hash r2.hash ≤ T then
      let res := growGroup r1 T rest (r2.path :: visited)
      (r2 :: res.1, res.2)
    else growGroup r1 T rest visited

/-- Output of the grouping pass: the `keep`, `remove` and
`duplicate_groups` lists of dedup_phash_v2.py lines 153-156. -/
structure GroupResult where
  keep : List ImageRecord
  remove : List ImageRecord
  groups : List (List ImageRecord)
deriving DecidableEq

/-- Outer loop of the grouping pass, dedup_phash_v2.py lines 159-180: a
visited record is skipped; otherwise it seeds a group grown over the
subsequent records; a singleton group goes to `keep`, a larger group puts
its seed in `keep`, its other members in `remove` and itself in
`duplicate_groups`. -/
def clusterLoop (T : Nat) : List ImageRecord → List FsPath → GroupResult
  | [], _ => ⟨[], [], []⟩
  | r1 :: rest, visited =>
    if r1.path ∈ visited then clusterLoop T rest visited
    else
      let gg := growGroup r1 T rest (r1.path :: visited)
      let res := clusterLoop T rest gg.2
      if gg.1 = [] then ⟨r1 :: res.keep, res.remove, res.groups⟩
      else ⟨r1 :: res.keep, gg.1 ++ res.remove, (r1 :: gg.1) :: res.groups⟩

/-- The whole grouping pass started with an empty visited set. -/
def dedupCluster (records : List ImageRecord) (T : Nat) : GroupResult :=
  clusterLoop T records []

/-- The structured report of dedup_phash_v2.py lines 183-190
(`dedup_report.json`). -/
structure RunReport where
  totalImages : Nat
  kept : List FsPath
  removed : List FsPath
  duplicateGroups : List (List FsPath)
deriving DecidableEq

/-- Build the run report from the raw image list (paths with the outcome of
their fingerprint computation) and the threshold: fingerprint loop, then
grouping, then the report of lines 183-190. -/
def mkReport (images : List (FsPath × Option PHash)) (T : Nat) : RunReport :=
  let res := dedupCluster (hashRecords images) T
  ⟨images.length,
   res.keep.map (fun r => r.path),
   res.remove.map (fun r => r.path),
   res.groups.map (fun g => g.map (fun r => r.path))⟩

/-! ## Filesystem model

The filesystem is a list of existing file paths (`fs`), together with a
list `locked` of paths whose deletion fails with a permission error (the
OS-level failure mode the spec talks about). Writing a file inserts its
path; deleting removes it. -/

/-- Errors an OS call can raise: `fileNotFound` for unlinking a missing
file without `missing_ok`, `permissionError` for a locked file, and
`valueError` for `Path.relative_to` on a non-relative path. -/
inductive OsError
  | fileNotFound
  | permissionError
  | valueError
deriving DecidableEq

/-- Creating or overwriting a file: its path now exists. -/
def osWrite (fs : List FsPath) (p : FsPath) : List FsPath :=
  if p ∈ fs then fs else p :: fs

/-- `Path.unlink(missing_ok=...)`: deleting an existing unlocked file
removes it; deleting a locked file raises `PermissionError`; deleting a
missing file raises `FileNotFoundError` unless `missing_ok` is set. -/
def osUnlink (locked : List FsPath) (fs : List FsPath) (p : FsPath)
    (missingOk : Bool) : Except OsError (List FsPath) :=
  if p ∈ fs then
    if p ∈ locked then .error .permissionError
    else .ok (fs.filter (fun q => q ≠ p))
  else if missingOk then .ok fs else .error .fileNotFound

/-- `Path / component`. -/
def FsPath.join (p : FsPath) (c : String) : FsPath := ⟨p.parts ++ [c]⟩

/-- `Path / Path`. -/
def FsPath.joinPath (p q : FsPath) : FsPath := ⟨p.parts ++ q.parts⟩

/-- `Path.relative_to(root)`: drops `root`'s components when they lead
`p`, otherwise raises `ValueError` (modelled as `none`). -/
def FsPath.relativeTo (p root : FsPath) : Option FsPath :=
  if p.parts.take root.parts.length = root.parts then
    some ⟨p.parts.drop root.parts.length⟩
  else none

/-- `Path.name`: the final component. -/
def FsPath.name (p : FsPath) : String := (p.parts.getLast?).getD ""

/-- Index of the last `.` in a character list, if any. -/
def rfindDot : List Char → Option Nat
  | [] => none
  | c :: cs =>
    match rfindDot cs with
    | some i => some (i + 1)
    | none => if c = '.' then some 0 else none

/-- `PurePath.stem`: the final component without its suffix; the suffix is
the part from the last dot on, provided that dot is neither the first nor
the last character of the name. -/
def pathStem (name : String) : String :=
  match rfindDot name.toList with
  | some i =>
    if 0 < i ∧ i + 1 < name.toList.length then
      String.mk (name.toList.take i)
    else name
  | none => name

/-- `Path.with_suffix(suf)`: replace the final component's suffix. -/
def FsPath.withSuffix (p : FsPath) (suf : String) : FsPath :=
  ⟨p.parts.dropLast ++ [pathStem p.name ++ suf]⟩

/-- The paired label path of an image, dedup_phash_v2.py lines 229-230:
`(labels_root / img_path.relative_to(images_root)).with_suffix(".txt")`.
`none` when `relative_to` raises. -/
def labelPathFor (labelsRoot imagesRoot imgPath : FsPath) : Option FsPath :=
  (imgPath.relativeTo imagesRoot).map
    (fun rel => (labelsRoot.joinPath rel).withSuffix ".txt")

/-- Deletion loop of dedup_phash_v2.py lines 222-231: for each removed
record unlink the image with `missing_ok=True`; when both a labels root
and an images root are configured, also unlink the derived label path with
`missing_ok=True`. No exception handling — any raised `OSError`
propagates and aborts the remaining iterations. -/
def deleteLoopV2 (locked : List FsPath) (labelsRoot imagesRoot : Option FsPath) :
    List FsPath → List ImageRecord → Except OsError (List FsPath)
  | fs, [] => .ok fs
  | fs, r :: rest =>
    match osUnlink locked fs r.path true with
    | .error e => .error e
    | .ok fs1 =>
      match labelsRoot, imagesRoot with
      | some lr, some ir =>
        match labelPathFor lr ir r.path with
        | some lbl =>
          match osUnlink locked fs1 lbl true with
          | .error e => .error e
          | .ok fs2 => deleteLoopV2 locked (some lr) (some ir) fs2 rest
        | none => .error .valueError
      | some lr, none => deleteLoopV2 locked (some lr) none fs1 rest
      | none, ir => deleteLoopV2 locked none ir fs1 rest

/-- Deletion loop of dedup_phash.py lines 136-144: compute the label path,
then unlink image and label only after an existence check (plain `unlink`,
no `missing_ok`). Again no exception handling. -/
def deleteLoopV1 (locked : List FsPath) (labelsRoot imagesRoot : FsPath) :
    List FsPath → List ImageRecord → Except OsError (List FsPath)
  | fs, [] => .ok fs
  | fs, r :: rest =>
    match labelPathFor labelsRoot imagesRoot r.path with
    | none => .error .valueError
    | some lbl =>
      match (if r.path ∈ fs then osUnlink locked fs r.path false else .ok fs) with
      | .error e => .error e
      | .ok fs1 =>
        match (if lbl ∈ fs1 then osUnlink locked fs1 lbl false else .ok fs1) with
        | .error e => .error e
        | .ok fs2 => deleteLoopV1 locked labelsRoot imagesRoot fs2 rest

/-- The three log files written at dedup_phash_v2.py lines 192-201. -/
def writeLogs (logDir : FsPath) (fs : List FsPath) : List FsPath :=
  osWrite (osWrite (osWrite fs (logDir.join "dedup_report.json"))
    (logDir.join "deleted_files.txt")) (logDir.join "kept_files.txt")

/-- The path of the structured report file. -/
def reportFilePath (logDir : FsPath) : FsPath := logDir.join "dedup_report.json"

/-- Preview/copy phase of dedup_phash_v2.py lines 207-215: for the i-th
duplicate group write `preview_dir/group_{i+1}.png` and copy every member
but the first to `all_duplicates_dir/group_{i+1}/<name>`. Writes only. -/
def writePreviews (previewDir allDupDir : FsPath) :
    Nat → List (List ImageRecord) → List FsPath → List FsPath
  | _, [], fs => fs
  | i, g :: gs, fs =>
    let fs1 := osWrite fs (previewDir.join ("group_" ++ toString (i + 1) ++ ".png"))
    let gdir := allDupDir.join ("group_" ++ toString (i + 1))
    let fs2 := (g.drop 1).foldl (fun acc r => osWrite acc (gdir.join r.path.name)) fs1
    writePreviews previewDir allDupDir (i + 1) gs fs2

/-- Configuration of `deduplicate_images` (dedup_phash_v2.py lines 74-85). -/
structure DedupConfig where
  phashThreshold : Nat
  dryRun : Bool
  logDir : FsPath
  previewDir : FsPath
  allDuplicatesDir : FsPath
  labelsRoot : Option FsPath
  imagesRoot : Option FsPath
deriving DecidableEq

/-- Filesystem effect of `deduplicate_images` (dedup_phash_v2.py lines
139-231): hash, cluster, write the three logs, write previews and copies,
then return if `dry_run` (line 218-220) and otherwise run the deletion
loop. The split-index regeneration phase (lines 234-247), which only
writes `train/val/test.txt` files, is outside the claims and not modelled;
directory creation does not affect file existence and is not modelled. -/
def deduplicateImagesFS (cfg : DedupConfig) (locked : List FsPath)
    (images : List (FsPath × Option PHash)) (fs0 : List FsPath) :
    Except OsError (List FsPath) :=
  let res := dedupCluster (hashRecords images) cfg.phashThreshold
  let fs1 := writeLogs cfg.logDir fs0
  let fs2 := writePreviews cfg.previewDir cfg.allDuplicatesDir 0 res.groups fs1
  if cfg.dryRun then .ok fs2
  else deleteLoopV2 locked cfg.labelsRoot cfg.imagesRoot fs2 res.remove

/-! ## Exit-status model of dedup_fastdup.py -/

/-- How a run of dedup_fastdup.py ends, beyond its exit status. -/
inductive FastdupOutcome
  | datasetMissing
  | imagesRootMissing
  | proceeded (labelsWarning : Bool)
deriving DecidableEq

/-- Exit status and outcome of dedup_fastdup.py: `__main__` (lines
288-299) calls `exit(1)` when the dataset path does not exist; otherwise
`deduplicate_with_fastdup` (lines 94-108) prints an error and `return`s —
leaving the exit status 0 — when `images_root` does not exist, and only
prints a warning when `labels_root` does not exist. `dirs` is the set of
directories that exist. -/
def fastdupMain (dirs : List FsPath) (datasetPath : FsPath) :
    Nat × FastdupOutcome :=
  if datasetPath ∈ dirs then
    if datasetPath.join "images" ∈ dirs then
      if datasetPath.join "labels" ∈ dirs then (0, .proceeded false)
      else (0, .proceeded true)
    else (0, .imagesRootMissing)
  else (1, .datasetMissing)

/-- Paths of the kept records. -/
def keepPaths (res : GroupResult) : List FsPath :=
  res.keep.map (fun r => r.path)

/-- Paths of the removed records. -/
def removePaths (res : GroupResult) : List FsPath :=
  res.remove.map (fun r => r.path)

/-! ## Basic lemmas: fingerprint distance and the hashing loop -/

theorem hamming_self (h : PHash) : hamming h h = 0 := by
  induction h with
  | nil => rfl
  | cons a t ih => simpa [hamming, List.zip_cons_cons] using ih

theorem eq_of_hamming_eq_zero {h1 h2 : PHash} (hlen : h1.length = h2.length)
    (h0 : hamming h1 h2 = 0) : h1 = h2 := by
  induction h1 generalizing h2 with
  | nil => cases h2 <;> simp_all
  | cons a t1 ih =>
    cases h2 with
    | nil => simp at hlen
    | cons b t2 =>
      simp only [hamming, List.zip_cons_cons, List.countP_cons] at h0
      rcases Nat.eq_zero_of_add_eq_zero_left h0, Nat.eq_zero_of_add_eq_zero_right h0 with ⟨hif, hzip⟩
      have hab : a = b := by cases a <;> cases b <;> simp_all
      have ht : t1 = t2 := ih (by simpa using hlen) (by simpa [hamming] using hzip)
      rw [hab, ht]

theorem hashRecords_mem_of {imgs : List (FsPath × Option PHash)} {p : FsPath}
    {h : PHash} (hm : (p, some h) ∈ imgs) :
    (⟨p, h⟩ : ImageRecord) ∈ hashRecords imgs := by
  induction imgs with
  | nil => cases hm
  | cons x rest ih =>
    rcases x with ⟨q, hq⟩
    cases hq with
    | none =>
      rcases List.mem_cons.mp hm with heq | hmem
      · exact absurd (congrArg Prod.snd heq) (by simp)
      · simpa [hashRecords] using ih hmem
    | some hv =>
      rcases List.mem_cons.mp hm with heq | hmem
      · injection heq with h1 h2
        subst h1
        injection h2 with h3
        subst h3
        simp [hashRecords]
      · simp only [hashRecords]
        exact List.mem_cons_of_mem _ (ih hmem)

theorem mem_of_mem_hashRecords {imgs : List (FsPath × Option PHash)}
    {r : ImageRecord} (hm : r ∈ hashRecords imgs) :
    (r.path, some r.hash) ∈ imgs := by
  induction imgs with
  | nil => cases hm
  | cons x rest ih =>
    rcases x with ⟨q, hq⟩
    cases hq with
    | none =>
      simp only [hashRecords] at hm
      exact List.mem_cons_of_mem _ (ih hm)
    | some hv =>
      simp only [hashRecords] at hm
      rcases List.mem_cons.mp hm with heq | hmem
      · subst heq
        exact List.mem_cons_self _ _
      · exact List.mem_cons_of_mem _ (ih hmem)

theorem snd_eq_of_nodup_fst {α β : Type} {l : List (α × β)} {p : α} {a b : β}
    (hnd : (l.map Prod.fst).Nodup) (ha : (p, a) ∈ l) (hb : (p, b) ∈ l) :
    a = b := by
  induction l with
  | nil => cases ha
  | cons x rest ih =>
    simp only [List.map_cons, List.nodup_cons] at hnd
    rcases List.mem_cons.mp ha with ha1 | ha2 <;>
      rcases List.mem_cons.mp hb with hb1 | hb2
    · have h12 : ((p, a) : α × β) = (p, b) := ha1.trans hb1.symm
      injection h12
    · rw [← ha1] at hnd
      exact absurd (List.mem_map_of_mem Prod.fst hb2) hnd.1
    · rw [← hb1] at hnd
      exact absurd (List.mem_map_of_mem Prod.fst ha2) hnd.1
    · exact ih hnd.2 ha2 hb2

/-! ## Lemmas about the grouping loop -/

theorem growGroup_snd (r1 : ImageRecord) (T : Nat) (rest : List ImageRecord)
    (visited : List FsPath) :
    (growGroup r1 T rest visited).2 =
      ((growGroup r1 T rest visited).1.map (fun r => r.path)).reverse ++ visited := by
  induction rest generalizing visited with
  | nil => simp [growGroup]
  | cons r2 rs ih =>
    by_cases hv : r2.path ∈ visited
    · simp [growGroup, hv, ih]
    · by_cases hd : hamming r1.hash r2.hash ≤ T
      · simp [growGroup, hv, hd, ih, List.reverse_cons, List.append_assoc]
      · simp [growGroup, hv, hd, ih]

theorem growGroup_mem {r1 : ImageRecord} {T : Nat} {rest : List ImageRecord}
    {visited : List FsPath} {s : ImageRecord}
    (hs : s ∈ (growGroup r1 T rest visited).1) :
    s ∈ rest ∧ s.path ∉ visited ∧ hamming r1.hash s.hash ≤ T := by
  induction rest generalizing visited with
  | nil => simp [growGroup] at hs
  | cons r2 rs ih =>
    by_cases hv : r2.path ∈ visited
    · simp only [growGroup, if_pos hv] at hs
      obtain ⟨h1, h2, h3⟩ := ih hs
      exact ⟨List.mem_cons_of_mem _ h1, h2, h3⟩
    · by_cases hd : hamming r1.hash r2.hash ≤ T
      · simp only [growGroup, if_neg hv, if_pos hd] at hs
        rcases List.mem_cons.mp hs with heq | hmem
        · subst heq
          exact ⟨List.mem_cons_self _ _, hv, hd⟩
        · obtain ⟨h1, h2, h3⟩ := ih hmem
          exact ⟨List.mem_cons_of_mem _ h1,
            fun hc => h2 (List.mem_cons_of_mem _ hc), h3⟩
      · simp only [growGroup, if_neg hv, if_neg hd] at hs
        obtain ⟨h1, h2, h3⟩ := ih hs
        exact ⟨List.mem_cons_of_mem _ h1, h2, h3⟩

theorem growGroup_nodup (r1 : ImageRecord) (T : Nat) (rest : List ImageRecord)
    (visited : List FsPath) :
    ((growGroup r1 T rest visited).1.map (fun r => r.path)).Nodup := by
  induction rest generalizing visited with
  | nil => simp [growGroup]
  | cons r2 rs ih =>
    by_cases hv : r2.path ∈ visited
    · simpa [growGroup, hv] using ih visited
    · by_cases hd : hamming r1.hash r2.hash ≤ T
      · simp only [growGroup, if_neg hv, if_pos hd, List.map_cons, List.nodup_cons]
        refine ⟨?_, ih _⟩
        intro hc
        rcases List.mem_map.mp hc with ⟨s, hs, hsp⟩
        have hnot := (growGroup_mem hs).2.1
        have hmem : s.path ∈ r2.path :: visited := by
          rw [hsp]
          exact List.mem_cons_self _ _
        exact hnot hmem
      · simpa [growGroup, hv, hd] using ih visited

theorem mem_growGroup_snd {r1 : ImageRecord} {T : Nat} {rest : List ImageRecord}
    {visited : List FsPath} {p : FsPath} :
    p ∈ (growGroup r1 T rest visited).2 ↔
      p ∈ (growGroup r1 T rest visited).1.map (fun r => r.path) ∨ p ∈ visited := by
  rw [growGroup_snd]
  simp [List.mem_append, List.mem_reverse]

theorem clusterLoop_cons_visited {T : Nat} {r1 : ImageRecord}
    {rest : List ImageRecord} {visited : List FsPath} (hv : r1.path ∈ visited) :
    clusterLoop T (r1 :: rest) visited = clusterLoop T rest visited := by
  simp [clusterLoop, hv]

theorem clusterLoop_cons_keep {T : Nat} {r1 : ImageRecord}
    {rest : List ImageRecord} {visited : List FsPath} (hv : r1.path ∉ visited) :
    (clusterLoop T (r1 :: rest) visited).keep =
      r1 :: (clusterLoop T rest (growGroup r1 T rest (r1.path :: visited)).2).keep := by
  by_cases hl : (growGroup r1 T rest (r1.path :: visited)).1 = [] <;>
    simp [clusterLoop, hv, hl]

theorem clusterLoop_cons_remove {T : Nat} {r1 : ImageRecord}
    {rest : List ImageRecord} {visited : List FsPath} (hv : r1.path ∉ visited) :
    (clusterLoop T (r1 :: rest) visited).remove =
      (growGroup r1 T rest (r1.path :: visited)).1 ++
        (clusterLoop T rest (growGroup r1 T rest (r1.path :: visited)).2).remove := by
  by_cases hl : (growGroup r1 T rest (r1.path :: visited)).1 = [] <;>
    simp [clusterLoop, hv, hl]

theorem clusterLoop_cons_groups_nil {T : Nat} {r1 : ImageRecord}
    {rest : List ImageRecord} {visited : List FsPath} (hv : r1.path ∉ visited)
    (hl : (growGroup r1 T rest (r1.path :: visited)).1 = []) :
    (clusterLoop T (r1 :: rest) visited).groups =
      (clusterLoop T rest (growGroup r1 T rest (r1.path :: visited)).2).groups := by
  simp [clusterLoop, hv, hl]

theorem clusterLoop_cons_groups_ne {T : Nat} {r1 : ImageRecord}
    {rest : List ImageRecord} {visited : List FsPath} (hv : r1.path ∉ visited)
    (hl : (growGroup r1 T rest (r1.path :: visited)).1 ≠ []) :
    (clusterLoop T (r1 :: rest) visited).groups =
      (r1 :: (growGroup r1 T rest (r1.path :: visited)).1) ::
        (clusterLoop T rest (growGroup r1 T rest (r1.path :: visited)).2).groups := by
  simp [clusterLoop, hv, hl]

theorem clusterLoop_inv (T : Nat) (recs : List ImageRecord) (visited : List FsPath) :
    (∀ p ∈ (clusterLoop T recs visited).keep.map (fun r => r.path), p ∉ visited) ∧
    (∀ p ∈ (clusterLoop T recs visited).remove.map (fun r => r.path), p ∉ visited) ∧
    (∀ p ∈ (clusterLoop T recs visited).keep.map (fun r => r.path),
      p ∉ (clusterLoop T recs visited).remove.map (fun r => r.path)) := by
  induction recs generalizing visited with
  | nil => simp [clusterLoop]
  | cons r1 rest ih =>
    by_cases hv : r1.path ∈ visited
    · rw [clusterLoop_cons_visited hv]
      exact ih visited
    · obtain ⟨ihk, ihr, ihd⟩ := ih (growGroup r1 T rest (r1.path :: visited)).2
      rw [clusterLoop_cons_keep hv, clusterLoop_cons_remove hv]
      refine ⟨?_, ?_, ?_⟩
      · intro p hp
        simp only [List.map_cons, List.mem_cons] at hp
        rcases hp with hp | hp
        · subst hp; exact hv
        · intro hc
          exact ihk p hp (mem_growGroup_snd.mpr (Or.inr (List.mem_cons_of_mem _ hc)))
      · intro p hp
        simp only [List.map_append, List.mem_append] at hp
        rcases hp with hp | hp
        · rcases List.mem_map.mp hp with ⟨s, hs, hsp⟩
          subst hsp
          intro hc
          exact (growGroup_mem hs).2.1 (List.mem_cons_of_mem _ hc)
        · intro hc
          exact ihr p hp (mem_growGroup_snd.mpr (Or.inr (List.mem_cons_of_mem _ hc)))
      · intro p hp
        simp only [List.map_cons, List.mem_cons] at hp
        intro hc
        simp only [List.map_append, List.mem_append] at hc
        rcases hp with hp | hp
        · subst hp
          rcases hc with hc | hc
          · rcases List.mem_map.mp hc with ⟨s, hs, hsp⟩
            exact (growGroup_mem hs).2.1 (hsp ▸ List.mem_cons_self _ _)
          · exact ihr r1.path hc
              (mem_growGroup_snd.mpr (Or.inr (List.mem_cons_self _ _)))
      
        · rcases hc with hc | hc
          · exact ihk p hp (mem_growGroup_snd.mpr (Or.inl hc))
          · exact ihd p hp hc

theorem clusterLoop_coverage (T : Nat) (recs : List ImageRecord)
    (visited : List FsPath) :
    ∀ r ∈ recs, r.path ∈ visited ∨
      r.path ∈ (clusterLoop T recs visited).keep.map (fun r => r.path) ∨
      r.path ∈ (clusterLoop T recs visited).remove.map (fun r => r.path) := by
  induction recs generalizing visited with
  | nil => simp
  | cons r1 rest ih =>
    intro r hr
    by_cases hv : r1.path ∈ visited
    · rw [clusterLoop_cons_visited hv]
      rcases List.mem_cons.mp hr with heq | hmem
      · subst heq; exact Or.inl hv
      · exact ih visited r hmem
    · rw [clusterLoop_cons_keep hv, clusterLoop_cons_remove hv]
      rcases List.mem_cons.mp hr with heq | hmem
      · subst heq
        right; left
        simp
      · rcases ih (growGroup r1 T rest (r1.path :: visited)).2 r hmem with h | h | h
        · rcases mem_growGroup_snd.mp h with h | h
          · right; right
            simp only [List.map_append, List.mem_append]
            exact Or.inl h
          · rcases List.mem_cons.mp h with heq | hvis
            · right; left
              simp [heq]
            · exact Or.inl hvis
        · right; left
          simp only [List.map_cons, List.mem_cons]
          exact Or.inr h
        · right; right
          simp only [List.map_append, List.mem_append]
          exact Or.inr h

theorem clusterLoop_keep_subset (T : Nat) (recs : List ImageRecord)
    (visited : List FsPath) :
    ∀ r ∈ (clusterLoop T recs visited).keep, r ∈ recs := by
  induction recs generalizing visited with
  | nil => simp [clusterLoop]
  | cons r1 rest ih =>
    intro r hr
    by_cases hv : r1.path ∈ visited
    · rw [clusterLoop_cons_visited hv] at hr
      exact List.mem_cons_of_mem _ (ih visited r hr)
    · rw [clusterLoop_cons_keep hv] at hr
      rcases List.mem_cons.mp hr with heq | hmem
      · subst heq; exact List.mem_cons_self _ _
      · exact List.mem_cons_of_mem _ (ih _ r hmem)

theorem clusterLoop_remove_subset (T : Nat) (recs : List ImageRecord)
    (visited : List FsPath) :
    ∀ r ∈ (clusterLoop T recs visited).remove, r ∈ recs := by
  induction recs generalizing visited with
  | nil => simp [clusterLoop]
  | cons r1 rest ih =>
    intro r hr
    by_cases hv : r1.path ∈ visited
    · rw [clusterLoop_cons_visited hv] at hr
      exact List.mem_cons_of_mem _ (ih visited r hr)
    · rw [clusterLoop_cons_remove hv] at hr
      rcases List.mem_append.mp hr with hmem | hmem
      · exact List.mem_cons_of_mem _ (growGroup_mem hmem).1
      · exact List.mem_cons_of_mem _ (ih _ r hmem)

theorem clusterLoop_groups_structure (T : Nat) (recs : List ImageRecord)
    (visited : List FsPath) :
    ∀ g ∈ (clusterLoop T recs visited).groups, ∃ r t, g = r :: t ∧ t ≠ [] ∧
      r ∈ (clusterLoop T recs visited).keep ∧
      (∀ s ∈ t, s ∈ (clusterLoop T recs visited).remove ∧ s.path ≠ r.path ∧
        hamming r.hash s.hash ≤ T) := by
  induction recs generalizing visited with
  | nil => simp [clusterLoop]
  | cons r1 rest ih =>
    intro g hg
    by_cases hv : r1.path ∈ visited
    · rw [clusterLoop_cons_visited hv] at hg ⊢
      exact ih visited g hg
    · by_cases hl : (growGroup r1 T rest (r1.path :: visited)).1 = []
      · rw [clusterLoop_cons_groups_nil hv hl] at hg
        obtain ⟨r, t, hgt, hne, hrk, hts⟩ := ih _ g hg
        refine ⟨r, t, hgt, hne, ?_, ?_⟩
        · rw [clusterLoop_cons_keep hv]
          exact List.mem_cons_of_mem _ hrk
        · intro s hs
          obtain ⟨h1, h2, h3⟩ := hts s hs
          refine ⟨?_, h2, h3⟩
          rw [clusterLoop_cons_remove hv]
          exact List.mem_append_right _ h1
      · rw [clusterLoop_cons_groups_ne hv hl] at hg
        rcases List.mem_cons.mp hg with heq | hmem
        · refine ⟨r1, (growGroup r1 T rest (r1.path :: visited)).1, heq, hl, ?_, ?_⟩
          · rw [clusterLoop_cons_keep hv]
            exact List.mem_cons_self _ _
          · intro s hs
            obtain ⟨h1, h2, h3⟩ := growGroup_mem hs
            refine ⟨?_, ?_, h3⟩
            · rw [clusterLoop_cons_remove hv]
              exact List.mem_append_left _ hs
            · intro hc
              exact h2 (hc ▸ List.mem_cons_self _ _)
        · obtain ⟨r, t, hgt, hne, hrk, hts⟩ := ih _ g hmem
          refine ⟨r, t, hgt, hne, ?_, ?_⟩
          · rw [clusterLoop_cons_keep hv]
            exact List.mem_cons_of_mem _ hrk
          · intro s hs
            obtain ⟨h1, h2, h3⟩ := hts s hs
            refine ⟨?_, h2, h3⟩
            rw [clusterLoop_cons_remove hv]
            exact List.mem_append_right _ h1

theorem clusterLoop_remove_eq (T : Nat) (recs : List ImageRecord)
    (visited : List FsPath) :
    (clusterLoop T recs visited).remove =
      ((clusterLoop T recs visited).groups.map (fun g => g.drop 1)).flatten := by
  induction recs generalizing visited with
  | nil => simp [clusterLoop]
  | cons r1 rest ih =>
    by_cases hv : r1.path ∈ visited
    · rw [clusterLoop_cons_visited hv]
      exact ih visited
    · by_cases hl : (growGroup r1 T rest (r1.path :: visited)).1 = []
      · rw [clusterLoop_cons_remove hv, clusterLoop_cons_groups_nil hv hl, hl]
        simpa using ih _
      · rw [clusterLoop_cons_remove hv, clusterLoop_cons_groups_ne hv hl]
        simp [ih _]

/-! ## Lemmas for the threshold-0 edge cases -/

theorem growGroup_all {r1 : ImageRecord} {T : Nat} {rest : List ImageRecord}
    {visited : List FsPath}
    (hd : ∀ s ∈ rest, hamming r1.hash s.hash ≤ T)
    (hnv : ∀ s ∈ rest, s.path ∉ visited)
    (hnd : (rest.map (fun r => r.path)).Nodup) :
    (growGroup r1 T rest visited).1 = rest := by
  induction rest generalizing visited with
  | nil => simp [growGroup]
  | cons r2 rs ih =>
    have hv : r2.path ∉ visited := hnv r2 (List.mem_cons_self _ _)
    have hd2 : hamming r1.hash r2.hash ≤ T := hd r2 (List.mem_cons_self _ _)
    simp only [List.map_cons, List.nodup_cons] at hnd
    have hrec : (growGroup r1 T rs (r2.path :: visited)).1 = rs := by
      refine ih (fun s hs => hd s (List.mem_cons_of_mem _ hs)) ?_ hnd.2
      intro s hs
      intro hc
      rcases List.mem_cons.mp hc with heq | hmem
      · exact hnd.1 (heq ▸ List.mem_map_of_mem (fun r => r.path) hs)
      · exact hnv s (List.mem_cons_of_mem _ hs) hmem
    simp [growGroup, hv, hd2, hrec]

theorem growGroup_far {r1 : ImageRecord} {T : Nat} {rest : List ImageRecord}
    (visited : List FsPath)
    (hd : ∀ s ∈ rest, ¬ hamming r1.hash s.hash ≤ T) :
    growGroup r1 T rest visited = ([], visited) := by
  induction rest generalizing visited with
  | nil => simp [growGroup]
  | cons r2 rs ih =>
    have hd2 : ¬ hamming r1.hash r2.hash ≤ T := hd r2 (List.mem_cons_self _ _)
    have hrec := fun v => ih v (fun s hs => hd s (List.mem_cons_of_mem _ hs))
    by_cases hv : r2.path ∈ visited <;> simp [growGroup, hv, hd2, hrec]

theorem clusterLoop_all_visited {T : Nat} {recs : List ImageRecord}
    {visited : List FsPath} (hall : ∀ r ∈ recs, r.path ∈ visited) :
    clusterLoop T recs visited = ⟨[], [], []⟩ := by
  induction recs with
  | nil => simp [clusterLoop]
  | cons r1 rest ih =>
    have hv : r1.path ∈ visited := hall r1 (List.mem_cons_self _ _)
    rw [clusterLoop_cons_visited hv]
    exact ih (fun r hr => hall r (List.mem_cons_of_mem _ hr))

theorem clusterLoop_all_far {T : Nat} {recs : List ImageRecord}
    {visited : List FsPath}
    (hfar : List.Pairwise (fun a b => ¬ hamming a.hash b.hash ≤ T) recs)
    (hnd : (recs.map (fun r => r.path)).Nodup)
    (hnv : ∀ r ∈ recs, r.path ∉ visited) :
    clusterLoop T recs visited = ⟨recs, [], []⟩ := by
  induction recs generalizing visited with
  | nil => simp [clusterLoop]
  | cons r1 rest ih =>
    rcases List.pairwise_cons.mp hfar with ⟨hfar1, hfar2⟩
    simp only [List.map_cons, List.nodup_cons] at hnd
    have hv : r1.path ∉ visited := hnv r1 (List.mem_cons_self _ _)
    have hgg : growGroup r1 T rest (r1.path :: visited) = ([], r1.path :: visited) :=
      growGroup_far _ hfar1
    have hrec : clusterLoop T rest (r1.path :: visited) = ⟨rest, [], []⟩ := by
      refine ih hfar2 hnd.2 ?_
      intro s hs hc
      rcases List.mem_cons.mp hc with heq | hmem
      · exact hnd.1 (heq ▸ List.mem_map_of_mem (fun r => r.path) hs)
      · exact hnv s (List.mem_cons_of_mem _ hs) hmem
    simp [clusterLoop, hv, hgg, hrec]

/-! ## Lemmas about the filesystem model -/

theorem osWrite_mem_of {fs : List FsPath} {p q : FsPath} (h : q ∈ fs) :
    q ∈ osWrite fs p := by
  unfold osWrite
  split
  · exact h
  · exact List.mem_cons_of_mem _ h

theorem osWrite_mem_self (fs : List FsPath) (p : FsPath) : p ∈ osWrite fs p := by
  unfold osWrite
  split
  · assumption
  · exact List.mem_cons_self _ _

theorem writeLogs_mem_of {fs : List FsPath} {logDir q : FsPath} (h : q ∈ fs) :
    q ∈ writeLogs logDir fs :=
  osWrite_mem_of (osWrite_mem_of (osWrite_mem_of h))

theorem writeLogs_mem_report (logDir : FsPath) (fs : List FsPath) :
    reportFilePath logDir ∈ writeLogs logDir fs :=
  osWrite_mem_of (osWrite_mem_of (osWrite_mem_self fs (reportFilePath logDir)))

theorem foldl_osWrite_mem_of {l : List ImageRecord} {f : ImageRecord → FsPath}
    {fs : List FsPath} {q : FsPath} (h : q ∈ fs) :
    q ∈ l.foldl (fun acc r => osWrite acc (f r)) fs := by
  induction l generalizing fs with
  | nil => exact h
  | cons x xs ih => exact ih (osWrite_mem_of h)

theorem writePreviews_mem_of {gs : List (List ImageRecord)}
    {previewDir allDupDir : FsPath} {i : Nat} {fs : List FsPath} {q : FsPath}
    (h : q ∈ fs) : q ∈ writePreviews previewDir allDupDir i gs fs := by
  induction gs generalizing i fs with
  | nil => exact h
  | cons g grest ih =>
    exact ih (foldl_osWrite_mem_of (osWrite_mem_of h))

theorem osUnlink_ok_subset {locked fs : List FsPath} {p : FsPath} {mo : Bool}
    {fs1 : List FsPath} (h : osUnlink locked fs p mo = .ok fs1) :
    ∀ q ∈ fs1, q ∈ fs := by
  unfold osUnlink at h
  split at h
  · split at h
    · cases h
    · injection h with h
      subst h
      intro q hq
      exact (List.mem_filter.mp hq).1
  · split at h
    · injection h with h
      subst h
      exact fun q hq => hq
    · cases h

theorem osUnlink_missingOk_not_mem {locked fs : List FsPath} {p : FsPath}
    {fs1 : List FsPath} (h : osUnlink locked fs p true = .ok fs1) : p ∉ fs1 := by
  unfold osUnlink at h
  split at h
  · split at h
    · cases h
    · injection h with h
      subst h
      intro hc
      have := (List.mem_filter.mp hc).2
      simp at this
  · injection h with h
    subst h
    assumption

theorem deleteLoopV2_ok_subset {locked : List FsPath} {lro iro : Option FsPath}
    {remove : List ImageRecord} {fs fsF : List FsPath}
    (h : deleteLoopV2 locked lro iro fs remove = .ok fsF) : ∀ q ∈ fsF, q ∈ fs := by
  induction remove generalizing fs with
  | nil =>
    simp only [deleteLoopV2] at h
    injection h with h
    subst h
    exact fun q hq => hq
  | cons r rest ih =>
    simp only [deleteLoopV2] at h
    split at h
    · simp at h
    · rename_i fs1 h1
      have hsub1 := osUnlink_ok_subset h1
      split at h
      · rename_i lr ir
        split at h
        · rename_i lbl h2
          split at h
          · simp at h
          · rename_i fs2 h3
            have hsub2 := osUnlink_ok_subset h3
            exact fun q hq => hsub1 q (hsub2 q (ih h q hq))
        · simp at h
      · exact fun q hq => hsub1 q (ih h q hq)
      · exact fun q hq => hsub1 q (ih h q hq)

theorem deleteLoopV2_label_not_mem {locked : List FsPath} {lr ir : FsPath}
    {remove : List ImageRecord} {fs fsF : List FsPath}
    (h : deleteLoopV2 locked (some lr) (some ir) fs remove = .ok fsF) :
    ∀ s ∈ remove, ∀ lbl, labelPathFor lr ir s.path = some lbl → lbl ∉ fsF := by
  induction remove generalizing fs with
  | nil => simp
  | cons r rest ih =>
    intro s hs lbl hlbl
    simp only [deleteLoopV2] at h
    split at h
    · simp at h
    · rename_i fs1 h1
      split at h
      · rename_i lbl2 h2
        split at h
        · simp at h
        · rename_i fs2 h3
          rcases List.mem_cons.mp hs with heq | hmem
          · subst heq
            rw [hlbl] at h2
            injection h2 with h2
            subst h2
            intro hc
            exact osUnlink_missingOk_not_mem h3 (deleteLoopV2_ok_subset h lbl hc)
          · exact ih h s hmem lbl hlbl
      · simp at h

theorem deleteLoopV2_no_labels_ok (locked : List FsPath) (iro : Option FsPath)
    (remove : List ImageRecord) (fs : List FsPath)
    (hnl : ∀ r ∈ remove, r.path ∉ locked) :
    ∃ fsF, deleteLoopV2 locked none iro fs remove = .ok fsF := by
  induction remove generalizing fs with
  | nil => exact ⟨fs, rfl⟩
  | cons r rest ih =>
    have hr : r.path ∉ locked := hnl r (List.mem_cons_self _ _)
    have hstep : ∃ fs1, osUnlink locked fs r.path true = .ok fs1 := by
      unfold osUnlink
      by_cases hm : r.path ∈ fs
      · simp [hm, hr]
      · simp [hm]
    obtain ⟨fs1, h1⟩ := hstep
    obtain ⟨fsF, hF⟩ := ih fs1 (fun s hs => hnl s (List.mem_cons_of_mem _ hs))
    refine ⟨fsF, ?_⟩
    simp only [deleteLoopV2, h1]
    exact hF

theorem deleteLoopV2_abort {locked fs : List FsPath} {lro iro : Option FsPath}
    {r : ImageRecord} {rest : List ImageRecord}
    (hmem : r.path ∈ fs) (hlock : r.path ∈ locked) :
    deleteLoopV2 locked lro iro fs (r :: rest) = .error .permissionError := by
  have h1 : osUnlink locked fs r.path true = .error .permissionError := by
    unfold osUnlink
    simp [hmem, hlock]
  simp only [deleteLoopV2, h1]

theorem deleteLoopV2_absent_step {locked fs : List FsPath} {lr ir : FsPath}
    {r : ImageRecord} {lbl : FsPath}
    (hlbl : labelPathFor lr ir r.path = some lbl)
    (himg : r.path ∉ fs) (hl : lbl ∉ fs) :
    deleteLoopV2 locked (some lr) (some ir) fs [r] = .ok fs := by
  have h1 : osUnlink locked fs r.path true = .ok fs := by
    unfold osUnlink
    simp [himg]
  have h2 : osUnlink locked fs lbl true = .ok fs := by
    unfold osUnlink
    simp [hl]
  simp only [deleteLoopV2, h1, hlbl, h2]

theorem deleteLoopV1_absent_step {locked fs : List FsPath} {lr ir : FsPath}
    {r : ImageRecord} {lbl : FsPath}
    (hlbl : labelPathFor lr ir r.path = some lbl)
    (himg : r.path ∉ fs) (hl : lbl ∉ fs) :
    deleteLoopV1 locked lr ir fs [r] = .ok fs := by
  simp only [deleteLoopV1, hlbl, if_neg himg, if_neg hl]

/-! ## Claim theorems -/

/-- Claim C1, counterexample: on a run with a single image whose fingerprint
computation fails, the report's kept list is empty — the failed image
appears in the kept list of no run report, contradicting the claim that
every fingerprint-failed image appears in the kept list. (It appears in
the removed list of no report either, so it is still never deleted.) -/
theorem C1_counterexample :
    (mkReport [(FsPath.mk ["raw", "a.jpg"], (none : Option PHash))] 6).totalImages = 1 ∧
    (mkReport [(FsPath.mk ["raw", "a.jpg"], (none : Option PHash))] 6).kept = [] ∧
    (mkReport [(FsPath.mk ["raw", "a.jpg"], (none : Option PHash))] 6).removed = [] := by
  decide

/-- Claim C1, amended: in every run report the kept and removed lists are
disjoint, every image whose fingerprint was computed successfully appears
in at least one of them, and every image whose fingerprint computation
failed appears in neither list — in particular it is never in the removed
list, hence never deleted — rather than in the kept list. -/
theorem C1_report_partition (images : List (FsPath × Option PHash)) (T : Nat)
    (hnd : (images.map Prod.fst).Nodup) :
    (∀ p ∈ (mkReport images T).kept, p ∉ (mkReport images T).removed) ∧
    (∀ p h, (p, some h) ∈ images →
      p ∈ (mkReport images T).kept ∨ p ∈ (mkReport images T).removed) ∧
    (∀ p, (p, (none : Option PHash)) ∈ images →
      p ∉ (mkReport images T).kept ∧ p ∉ (mkReport images T).removed) := by
  simp only [mkReport, dedupCluster]
  refine ⟨?_, ?_, ?_⟩
  · exact (clusterLoop_inv T (hashRecords images) []).2.2
  · intro p h hmem
    have hrec : (⟨p, h⟩ : ImageRecord) ∈ hashRecords images := hashRecords_mem_of hmem
    rcases clusterLoop_coverage T (hashRecords images) [] ⟨p, h⟩ hrec with hc | hc | hc
    · cases hc
    · exact Or.inl hc
    · exact Or.inr hc
  · intro p hmem
    constructor
    · intro hc
      rcases List.mem_map.mp hc with ⟨r, hr, hrp⟩
      have hrecs := clusterLoop_keep_subset T (hashRecords images) [] r hr
      have himg := mem_of_mem_hashRecords hrecs
      rw [hrp] at himg
      exact Option.noConfusion (snd_eq_of_nodup_fst hnd himg hmem)
    · intro hc
      rcases List.mem_map.mp hc with ⟨r, hr, hrp⟩
      have hrecs := clusterLoop_remove_subset T (hashRecords images) [] r hr
      have himg := mem_of_mem_hashRecords hrecs
      rw [hrp] at himg
      exact Option.noConfusion (snd_eq_of_nodup_fst hnd himg hmem)

/-- Witness for C1: a concrete run with one fingerprint failure and two
successes; the successes land in a report list, the failure in neither. -/
theorem C1_witness :
    (FsPath.mk ["i", "c.jpg"] ∈
        (mkReport [(FsPath.mk ["i", "a.jpg"], some [true]),
          (FsPath.mk ["i", "b.jpg"], (none : Option PHash)),
          (FsPath.mk ["i", "c.jpg"], some [true])] 0).kept ∨
      FsPath.mk ["i", "c.jpg"] ∈
        (mkReport [(FsPath.mk ["i", "a.jpg"], some [true]),
          (FsPath.mk ["i", "b.jpg"], (none : Option PHash)),
          (FsPath.mk ["i", "c.jpg"], some [true])] 0).removed) ∧
    FsPath.mk ["i", "b.jpg"] ∉
      (mkReport [(FsPath.mk ["i", "a.jpg"], some [true]),
        (FsPath.mk ["i", "b.jpg"], (none : Option PHash)),
        (FsPath.mk ["i", "c.jpg"], some [true])] 0).kept := by
  refine ⟨(C1_report_partition _ 0 (by decide)).2.1 _ [true] (by decide), ?_⟩
  exact ((C1_report_partition _ 0 (by decide)).2.2 _ (by decide)).1

/-- Claim C2: with the dry-run flag set, the pipeline raises nothing and
deletes nothing — every path present beforehand (in particular every file
referenced by the kept and removed report lists) is still present
afterwards — and the structured report file is written. -/
theorem C2_dry_run_preserves (cfg : DedupConfig) (locked : List FsPath)
    (images : List (FsPath × Option PHash)) (fs0 : List FsPath)
    (hdry : cfg.dryRun = true) :
    ∃ fsF, deduplicateImagesFS cfg locked images fs0 = .ok fsF ∧
      (∀ p ∈ fs0, p ∈ fsF) ∧
      reportFilePath cfg.logDir ∈ fsF ∧
      (∀ p, (p ∈ (mkReport images cfg.phashThreshold).kept ∨
             p ∈ (mkReport images cfg.phashThreshold).removed) →
        p ∈ fs0 → p ∈ fsF) := by
  refine ⟨writePreviews cfg.previewDir cfg.allDuplicatesDir 0
      (dedupCluster (hashRecords images) cfg.phashThreshold).groups
      (writeLogs cfg.logDir fs0), ?_, ?_, ?_, ?_⟩
  · simp only [deduplicateImagesFS, hdry, if_pos]
  · intro p hp
    exact writePreviews_mem_of (writeLogs_mem_of hp)
  · exact writePreviews_mem_of (writeLogs_mem_report cfg.logDir fs0)
  · intro p _ hp0
    exact writePreviews_mem_of (writeLogs_mem_of hp0)

/-- Witness for C2: a concrete dry run over one duplicate pair; the images
survive and the report file exists. -/
theorem C2_witness :
    ∃ fsF, deduplicateImagesFS
        ⟨6, true, FsPath.mk ["logs"], FsPath.mk ["prev"], FsPath.mk ["dups"],
          none, none⟩ []
        [(FsPath.mk ["i", "a.jpg"], some [true]),
         (FsPath.mk ["i", "b.jpg"], some [true])]
        [FsPath.mk ["i", "a.jpg"], FsPath.mk ["i", "b.jpg"]] = .ok fsF ∧
      (∀ p ∈ [FsPath.mk ["i", "a.jpg"], FsPath.mk ["i", "b.jpg"]], p ∈ fsF) ∧
      reportFilePath (FsPath.mk ["logs"]) ∈ fsF ∧
      (∀ p, (p ∈ (mkReport [(FsPath.mk ["i", "a.jpg"], some [true]),
                  (FsPath.mk ["i", "b.jpg"], some [true])] 6).kept ∨
             p ∈ (mkReport [(FsPath.mk ["i", "a.jpg"], some [true]),
                  (FsPath.mk ["i", "b.jpg"], some [true])] 6).removed) →
        p ∈ [FsPath.mk ["i", "a.jpg"], FsPath.mk ["i", "b.jpg"]] → p ∈ fsF) :=
  C2_dry_run_preserves _ _ _ _ rfl

/-- Claim C3: every emitted duplicate group is its keeper (the first
member, which is in the keep list) followed by the non-keeper members,
each of which is in the removed list and not in the keep list; globally
the removed list consists of all and only the non-first members of the
groups. -/
theorem C3_keeper_first_member (recs : List ImageRecord) (T : Nat) :
    (∀ g ∈ (dedupCluster recs T).groups, ∃ keeper t, g = keeper :: t ∧ t ≠ [] ∧
      keeper ∈ (dedupCluster recs T).keep ∧
      (∀ s ∈ t, s ∈ (dedupCluster recs T).remove ∧ s.path ≠ keeper.path ∧
        s.path ∉ keepPaths (dedupCluster recs T))) ∧
    (dedupCluster recs T).remove =
      ((dedupCluster recs T).groups.map (fun g => g.drop 1)).flatten := by
  constructor
  · intro g hg
    obtain ⟨r, t, hgt, hne, hrk, hts⟩ :=
      clusterLoop_groups_structure T recs [] g hg
    refine ⟨r, t, hgt, hne, hrk, ?_⟩
    intro s hs
    obtain ⟨h1, h2, _⟩ := hts s hs
    refine ⟨h1, h2, ?_⟩
    intro hc
    have hsrm : s.path ∈ (clusterLoop T recs []).remove.map (fun r => r.path) :=
      List.mem_map_of_mem _ h1
    exact (clusterLoop_inv T recs []).2.2 s.path hc hsrm
  · exact clusterLoop_remove_eq T recs []

/-- Witness for C3: in a concrete run with one duplicate pair, the group's
first member is the keeper and the second member is removed. -/
theorem C3_witness :
    ∃ keeper t,
      ([⟨FsPath.mk ["i", "a.jpg"], [true]⟩, ⟨FsPath.mk ["i", "b.jpg"], [true]⟩] :
        List ImageRecord) = keeper :: t ∧
      keeper ∈ (dedupCluster
        [⟨FsPath.mk ["i", "a.jpg"], [true]⟩, ⟨FsPath.mk ["i", "b.jpg"], [true]⟩]
        0).keep := by
  obtain ⟨k, t, h1, _, h3, _⟩ :=
    (C3_keeper_first_member
      [⟨FsPath.mk ["i", "a.jpg"], [true]⟩, ⟨FsPath.mk ["i", "b.jpg"], [true]⟩]
      0).1
      [⟨FsPath.mk ["i", "a.jpg"], [true]⟩, ⟨FsPath.mk ["i", "b.jpg"], [true]⟩]
      (by decide)
  exact ⟨k, t, h1, h3⟩

/-- Claim C5: the clustering stage is a pure function of the ordered record
list and the threshold — two runs on the same input produce identical
groups and the identical first member (keeper) for each group. -/
theorem C5_deterministic (recs1 recs2 : List ImageRecord) (T1 T2 : Nat)
    (hr : recs1 = recs2) (hT : T1 = T2) :
    (dedupCluster recs1 T1).groups = (dedupCluster recs2 T2).groups ∧
    (dedupCluster recs1 T1).groups.map (fun g => g.head?) =
      (dedupCluster recs2 T2).groups.map (fun g => g.head?) := by
  subst hr
  subst hT
  exact ⟨rfl, rfl⟩

/-- Witness for C5: two runs over a concrete duplicate pair agree. -/
theorem C5_witness :
    (dedupCluster [⟨FsPath.mk ["i", "a.jpg"], [true]⟩,
        ⟨FsPath.mk ["i", "b.jpg"], [true]⟩] 0).groups =
      (dedupCluster [⟨FsPath.mk ["i", "a.jpg"], [true]⟩,
        ⟨FsPath.mk ["i", "b.jpg"], [true]⟩] 0).groups ∧
    (dedupCluster [⟨FsPath.mk ["i", "a.jpg"], [true]⟩,
        ⟨FsPath.mk ["i", "b.jpg"], [true]⟩] 0).groups.map (fun g => g.head?) =
      (dedupCluster [⟨FsPath.mk ["i", "a.jpg"], [true]⟩,
        ⟨FsPath.mk ["i", "b.jpg"], [true]⟩] 0).groups.map (fun g => g.head?) :=
  C5_deterministic _ _ 0 0 rfl rfl

/-- Claim C6: with threshold 0, records with pairwise-identical fingerprints
and distinct paths form exactly one group holding all of them (provided
there are at least two, since a singleton is kept and never materialized
as a group), and records with pairwise-distinct fingerprints of equal
length form no group at all, every record being kept. -/
theorem C6_threshold_zero (recs : List ImageRecord) :
    ((recs.map (fun r => r.path)).Nodup → 2 ≤ recs.length →
      (∀ r ∈ recs, ∀ s ∈ recs, r.hash = s.hash) →
      (dedupCluster recs 0).groups = [recs] ∧
      (dedupCluster recs 0).keep = recs.take 1 ∧
      (dedupCluster recs 0).remove = recs.drop 1) ∧
    ((recs.map (fun r => r.path)).Nodup →
      (∀ r ∈ recs, ∀ s ∈ recs, r.hash.length = s.hash.length) →
      List.Pairwise (fun a b => a.hash ≠ b.hash) recs →
      (dedupCluster recs 0).groups = [] ∧
      (dedupCluster recs 0).keep = recs ∧
      (dedupCluster recs 0).remove = []) := by
  constructor
  · intro hnd hlen hident
    match recs, hlen with
    | r1 :: r2 :: rest, _ =>
      simp only [List.map_cons, List.nodup_cons] at hnd
      have hgrow : (growGroup r1 0 (r2 :: rest) [r1.path]).1 = r2 :: rest := by
        refine growGroup_all ?_ ?_ ?_
        · intro s hs
          have : r1.hash = s.hash :=
            hident r1 (List.mem_cons_self _ _) s (List.mem_cons_of_mem _ hs)
          rw [this, hamming_self]
        · intro s hs hc
          rcases List.mem_cons.mp hc with heq | hmem
          · refine hnd.1 ?_
            have hsp : s.path ∈ List.map (fun r => r.path) (r2 :: rest) :=
              List.mem_map_of_mem _ hs
            rw [heq] at hsp
            simpa using hsp
          · cases hmem
        · exact List.nodup_cons.mpr hnd.2
      have hne : (growGroup r1 0 (r2 :: rest) [r1.path]).1 ≠ [] := by
        rw [hgrow]
        exact List.cons_ne_nil _ _
      have hvis : clusterLoop 0 (r2 :: rest) (growGroup r1 0 (r2 :: rest) [r1.path]).2 =
          ⟨[], [], []⟩ := by
        refine clusterLoop_all_visited ?_
        intro r hr
        refine mem_growGroup_snd.mpr (Or.inl ?_)
        rw [hgrow]
        exact List.mem_map_of_mem _ hr
      have hv : r1.path ∉ ([] : List FsPath) := by simp
      refine ⟨?_, ?_, ?_⟩
      · rw [dedupCluster, clusterLoop_cons_groups_ne hv hne, hvis, hgrow]
      · rw [dedupCluster, clusterLoop_cons_keep hv, hvis]
        simp
      · rw [dedupCluster, clusterLoop_cons_remove hv, hvis, hgrow]
        simp
  · intro hnd hlen hdist
    have hfar : List.Pairwise (fun a b => ¬ hamming a.hash b.hash ≤ 0) recs := by
      refine List.Pairwise.imp_of_mem ?_ hdist
      intro a b ha hb hne hle
      exact hne (eq_of_hamming_eq_zero (hlen a ha b hb) (Nat.le_zero.mp hle))
    have := clusterLoop_all_far hfar hnd (fun r _ => List.not_mem_nil _)
    rw [dedupCluster, this]
    exact ⟨rfl, rfl, rfl⟩

/-- Witness for C6: two identical-fingerprint records form one group of
two; two distinct-fingerprint records form no group and are both kept. -/
theorem C6_witness :
    (dedupCluster [⟨FsPath.mk ["i", "a.jpg"], [true]⟩,
        ⟨FsPath.mk ["i", "b.jpg"], [true]⟩] 0).groups =
      [[⟨FsPath.mk ["i", "a.jpg"], [true]⟩, ⟨FsPath.mk ["i", "b.jpg"], [true]⟩]] ∧
    (dedupCluster [⟨FsPath.mk ["i", "c.jpg"], [true]⟩,
        ⟨FsPath.mk ["i", "d.jpg"], [false]⟩] 0).groups = [] ∧
    (dedupCluster [⟨FsPath.mk ["i", "c.jpg"], [true]⟩,
        ⟨FsPath.mk ["i", "d.jpg"], [false]⟩] 0).keep =
      [⟨FsPath.mk ["i", "c.jpg"], [true]⟩, ⟨FsPath.mk ["i", "d.jpg"], [false]⟩] := by
  refine ⟨((C6_threshold_zero _).1 (by decide) (by decide) (by decide)).1, ?_, ?_⟩
  · exact ((C6_threshold_zero _).2 (by decide) (by decide) (by decide)).1
  · exact ((C6_threshold_zero _).2 (by decide) (by decide) (by decide)).2.1

/-- Claim C7: with threshold 1 and three records at mutual seed distance 1
but spoke distance 2, the first-seen pass puts all three in one group even
though the second and third member are at distance 2 > 1 from each other:
group membership does not require all pairs to be within the threshold. -/
theorem C7_beyond_threshold_same_group :
    (dedupCluster [⟨FsPath.mk ["i", "a.jpg"], [false, false]⟩,
        ⟨FsPath.mk ["i", "b.jpg"], [true, false]⟩,
        ⟨FsPath.mk ["i", "c.jpg"], [false, true]⟩] 1).groups =
      [[⟨FsPath.mk ["i", "a.jpg"], [false, false]⟩,
        ⟨FsPath.mk ["i", "b.jpg"], [true, false]⟩,
        ⟨FsPath.mk ["i", "c.jpg"], [false, true]⟩]] ∧
    ¬ hamming [true, false] [false, true] ≤ 1 := by
  decide

/-- Claim C10: in every emitted duplicate group, every member after the
first is within the threshold distance of the group's first member (the
seed) specifically — each group is a star around its seed. -/
theorem C10_star_around_seed (recs : List ImageRecord) (T : Nat) :
    ∀ g ∈ (dedupCluster recs T).groups, ∃ seed t, g = seed :: t ∧
      ∀ s ∈ t, hamming seed.hash s.hash ≤ T := by
  intro g hg
  obtain ⟨r, t, hgt, _, _, hts⟩ := clusterLoop_groups_structure T recs [] g hg
  exact ⟨r, t, hgt, fun s hs => (hts s hs).2.2⟩

/-- Witness for C10: the star group of the C7-style configuration has both
spokes within distance 1 of the seed. -/
theorem C10_witness :
    ∃ seed t,
      ([⟨FsPath.mk ["i", "a.jpg"], [false, false]⟩,
        ⟨FsPath.mk ["i", "b.jpg"], [true, false]⟩,
        ⟨FsPath.mk ["i", "c.jpg"], [false, true]⟩] : List ImageRecord) = seed :: t ∧
      ∀ s ∈ t, hamming seed.hash s.hash ≤ 1 :=
  C10_star_around_seed
    [⟨FsPath.mk ["i", "a.jpg"], [false, false]⟩,
     ⟨FsPath.mk ["i", "b.jpg"], [true, false]⟩,
     ⟨FsPath.mk ["i", "c.jpg"], [false, true]⟩] 1
    [⟨FsPath.mk ["i", "a.jpg"], [false, false]⟩,
     ⟨FsPath.mk ["i", "b.jpg"], [true, false]⟩,
     ⟨FsPath.mk ["i", "c.jpg"], [false, true]⟩]
    (by decide)

/-- Claim C4, counterexample: the deletion loop has no exception handling —
with the first removed file locked (its unlink raising PermissionError),
the whole run aborts with that error even though deleting the remaining
removal list alone would succeed; no completed-with-N-errors result
exists. -/
theorem C4_counterexample :
    deleteLoopV2 [FsPath.mk ["i", "a.jpg"]] none none
        [FsPath.mk ["i", "a.jpg"], FsPath.mk ["i", "b.jpg"]]
        [⟨FsPath.mk ["i", "a.jpg"], [true]⟩, ⟨FsPath.mk ["i", "b.jpg"], [true]⟩] =
      .error .permissionError ∧
    deleteLoopV2 [FsPath.mk ["i", "a.jpg"]] none none
        [FsPath.mk ["i", "a.jpg"], FsPath.mk ["i", "b.jpg"]]
        [⟨FsPath.mk ["i", "b.jpg"], [true]⟩] =
      .ok [FsPath.mk ["i", "a.jpg"]] := by
  constructor
  · rfl
  · rfl

/-- Claim C4, amended: during non-dry-run reconciliation the only tolerated
per-file failure is a missing file (`missing_ok` / an existence check):
when no removed path is locked the loop completes. Any other per-file
deletion failure, such as a permission error, is not caught: it aborts
processing of the remaining removal list and the run's result carries only
the raised error, with no completed-with-N-errors distinction. -/
theorem C4_uncaught_deletion_failure :
    (∀ (locked fs : List FsPath) (iro : Option FsPath)
        (remove : List ImageRecord), (∀ r ∈ remove, r.path ∉ locked) →
      ∃ fsF, deleteLoopV2 locked none iro fs remove = .ok fsF) ∧
    (∀ (locked fs : List FsPath) (lro iro : Option FsPath) (r : ImageRecord)
        (rest : List ImageRecord), r.path ∈ fs → r.path ∈ locked →
      deleteLoopV2 locked lro iro fs (r :: rest) = .error .permissionError) :=
  ⟨fun locked fs iro remove h => deleteLoopV2_no_labels_ok locked iro remove fs h,
   fun _ _ _ _ _ _ h1 h2 => deleteLoopV2_abort h1 h2⟩

/-- Witness for C4: a loop over two unlocked missing-or-present files
completes; a locked first file aborts the loop with a permission error. -/
theorem C4_witness :
    (∃ fsF, deleteLoopV2 [] none none [FsPath.mk ["i", "a.jpg"]]
        [⟨FsPath.mk ["i", "a.jpg"], [true]⟩, ⟨FsPath.mk ["i", "b.jpg"], [true]⟩] =
      .ok fsF) ∧
    deleteLoopV2 [FsPath.mk ["i", "c.jpg"]] none none [FsPath.mk ["i", "c.jpg"]]
        [⟨FsPath.mk ["i", "c.jpg"], [true]⟩] = .error .permissionError :=
  ⟨C4_uncaught_deletion_failure.1 [] _ none _ (by decide),
   C4_uncaught_deletion_failure.2 _ _ none none _ [] (by decide) (by decide)⟩

/-- Claim C8: in YOLO mode (labels and images roots configured), a
successful non-dry-run deletion pass leaves no removed image's paired
label file — the image path mirrored under the labels root with the
extension replaced by .txt — on disk, and when both the image file and its
label file are already absent the deletion step raises no error and leaves
the filesystem unchanged (for the v2 loop with `missing_ok` as well as for
the v1 loop with its existence checks). -/
theorem C8_label_deleted_and_absence_tolerated :
    (∀ (locked : List FsPath) (lr ir : FsPath) (remove : List ImageRecord)
        (fs fsF : List FsPath),
      deleteLoopV2 locked (some lr) (some ir) fs remove = .ok fsF →
      ∀ s ∈ remove, ∀ lbl, labelPathFor lr ir s.path = some lbl → lbl ∉ fsF) ∧
    (∀ (locked fs : List FsPath) (lr ir : FsPath) (r : ImageRecord) (lbl : FsPath),
      labelPathFor lr ir r.path = some lbl → r.path ∉ fs → lbl ∉ fs →
      deleteLoopV2 locked (some lr) (some ir) fs [r] = .ok fs) ∧
    (∀ (locked fs : List FsPath) (lr ir : FsPath) (r : ImageRecord) (lbl : FsPath),
      labelPathFor lr ir r.path = some lbl → r.path ∉ fs → lbl ∉ fs →
      deleteLoopV1 locked lr ir fs [r] = .ok fs) :=
  ⟨fun _ _ _ _ _ _ h => deleteLoopV2_label_not_mem h,
   fun _ _ _ _ _ _ h1 h2 h3 => deleteLoopV2_absent_step h1 h2 h3,
   fun _ _ _ _ _ _ h1 h2 h3 => deleteLoopV1_absent_step h1 h2 h3⟩

/-- Witness for C8: deleting `images/train/x.jpg` on a concrete filesystem
also removes `labels/train/x.txt`, and when both files are absent the step
is a no-op without error. -/
theorem C8_witness :
    FsPath.mk ["ds", "labels", "train", "x.txt"] ∉ ([] : List FsPath) ∧
    deleteLoopV2 [] (some (FsPath.mk ["ds", "labels"]))
        (some (FsPath.mk ["ds", "images"])) []
        [⟨FsPath.mk ["ds", "images", "train", "x.jpg"], [true]⟩] = .ok [] ∧
    deleteLoopV1 [] (FsPath.mk ["ds", "labels"]) (FsPath.mk ["ds", "images"]) []
        [⟨FsPath.mk ["ds", "images", "train", "x.jpg"], [true]⟩] = .ok [] := by
  refine ⟨?_, ?_, ?_⟩
  · exact C8_label_deleted_and_absence_tolerated.1 []
      (FsPath.mk ["ds", "labels"]) (FsPath.mk ["ds", "images"])
      [⟨FsPath.mk ["ds", "images", "train", "x.jpg"], [true]⟩]
      [FsPath.mk ["ds", "images", "train", "x.jpg"],
       FsPath.mk ["ds", "labels", "train", "x.txt"]] []
      (by rfl)
      ⟨FsPath.mk ["ds", "images", "train", "x.jpg"], [true]⟩ (by decide)
      (FsPath.mk ["ds", "labels", "train", "x.txt"]) (by rfl)
  · exact C8_label_deleted_and_absence_tolerated.2.1 [] []
      (FsPath.mk ["ds", "labels"]) (FsPath.mk ["ds", "images"])
      ⟨FsPath.mk ["ds", "images", "train", "x.jpg"], [true]⟩
      (FsPath.mk ["ds", "labels", "train", "x.txt"]) (by rfl) (by decide) (by decide)
  · exact C8_label_deleted_and_absence_tolerated.2.2 [] []
      (FsPath.mk ["ds", "labels"]) (FsPath.mk ["ds", "images"])
      ⟨FsPath.mk ["ds", "images", "train", "x.jpg"], [true]⟩
      (FsPath.mk ["ds", "labels", "train", "x.txt"]) (by rfl) (by decide) (by decide)

/-- Claim C9, counterexample: with the dataset root present but its
`images` subdirectory missing, the fastdup run stops early with an error
message yet the process exit status is 0, not non-zero as claimed. -/
theorem C9_counterexample :
    fastdupMain [FsPath.mk ["ds"]] (FsPath.mk ["ds"]) =
      (0, FastdupOutcome.imagesRootMissing) := by
  rfl

/-- Claim C9, amended: the fastdup entry point exits non-zero exactly when
the configured dataset root does not exist; a missing images root stops
the run early but with exit status 0, and a missing labels root only
produces a warning while the run proceeds. Per-image fingerprint failures
are caught inside the hashing loop — the records are exactly those of the
successfully fingerprinted images — so they never reach the exit status. -/
theorem C9_exit_status (dirs : List FsPath) (datasetPath : FsPath) :
    ((fastdupMain dirs datasetPath).1 ≠ 0 ↔ datasetPath ∉ dirs) ∧
    ((fastdupMain dirs datasetPath).2 = FastdupOutcome.imagesRootMissing →
      (fastdupMain dirs datasetPath).1 = 0) ∧
    (∀ images : List (FsPath × Option PHash),
      hashRecords images = hashRecords (images.filter (fun pr => pr.2.isSome))) := by
  refine ⟨?_, ?_, ?_⟩
  · unfold fastdupMain
    by_cases hd : datasetPath ∈ dirs
    · simp only [if_pos hd]
      by_cases hi : datasetPath.join "images" ∈ dirs
      · simp only [if_pos hi]
        by_cases hl : datasetPath.join "labels" ∈ dirs <;> simp [hl, hd]
      · simp [hi, hd]
    · simp [hd]
  · unfold fastdupMain
    by_cases hd : datasetPath ∈ dirs
    · simp only [if_pos hd]
      by_cases hi : datasetPath.join "images" ∈ dirs
      · simp only [if_pos hi]
        by_cases hl : datasetPath.join "labels" ∈ dirs <;> simp [hl]
      · simp [hi]
    · simp [hd]
  · intro images
    induction images with
    | nil => rfl
    | cons x rest ih =>
      rcases x with ⟨p, hq⟩
      cases hq with
      | none => simpa [hashRecords] using ih
      | some hv => simpa [hashRecords] using ih

/-- Witness for C9: with everything present the exit status is 0; with the
dataset root absent it is 1; the hashing loop of a mixed success/failure
list equals that of its successes only. -/
theorem C9_witness :
    ((fastdupMain [FsPath.mk ["ds"], FsPath.mk ["ds", "images"]]
        (FsPath.mk ["ds"])).1 ≠ 0 ↔ FsPath.mk ["ds"] ∉
          [FsPath.mk ["ds"], FsPath.mk ["ds", "images"]]) ∧
    hashRecords [(FsPath.mk ["i", "a.jpg"], some [true]),
        (FsPath.mk ["i", "b.jpg"], (none : Option PHash))] =
      hashRecords ([(FsPath.mk ["i", "a.jpg"], some [true]),
        (FsPath.mk ["i", "b.jpg"], (none : Option PHash))].filter
          (fun pr => pr.2.isSome)) :=
  ⟨(C9_exit_status [FsPath.mk ["ds"], FsPath.mk ["ds", "images"]]
      (FsPath.mk ["ds"])).1,
   (C9_exit_status [] (FsPath.mk ["ds"])).2.2 _⟩
